import Mathlib

set_option autoImplicit false
set_option maxRecDepth 8192

/-!
Shallow embedding of `src/libstd/io/buffered.rs`: the buffering decorators
`BufferedReader`, `BufferedWriter` and `LineBufferedWriter`.

Bytes are modelled as natural numbers (the Rust code moves `u8` values
opaquely and never computes with them, apart from comparing against the
newline byte `10`).  Mutable state is threaded explicitly: every operation
returns its result together with the updated state.  The wrapped source of a
reader is kept abstract as a state type `ρ` with a `ReaderOps ρ` record of
its `read`/`eof` methods; `memOps` instantiates it with the in-memory
`MemReader` source over its remaining bytes, and `oracleOps` with a scripted
source whose state is the list of its pending read results (used to count
source reads and to script a zero-byte short read).  The sink wrapped by a
writer is modelled as the list of write calls it has received, in order
(the `MemWriter` view of the sink, with a no-op sink `flush`).
-/

/-- Byte values carried by the streams. -/
abbrev Byte := Nat

/-- Rust slice `l.slice(a, b)`: the elements at indices `a, a+1, ..., b-1`. -/
def listSlice (l : List Byte) (a b : Nat) : List Byte :=
  (l.take b).drop a

/-- Interface of a wrapped `Reader` (the Source capability): `read` receives
the length of the destination buffer and returns the bytes it wrote into it
(`none` signals end-of-stream) together with its next state; `eof` reports
end-of-stream. -/
structure ReaderOps (ρ : Type) where
  read : ρ → Nat → Option (List Byte) × ρ
  eof : ρ → Bool

/-- State of `BufferedReader`: the wrapped source `inner`, the buffer storage
`buf` (its length is the buffer capacity), the read position `pos` and the
valid-data watermark `cap` (the Rust struct names the watermark field `cap`). -/
structure BufferedReader (ρ : Type) where
  inner : ρ
  buf : List Byte
  pos : Nat
  cap : Nat
deriving DecidableEq

/-- Constructor `BufferedReader::with_capacity`: a fresh reader whose buffer is
allocated uninitialized in the Rust code, modelled as zero-filled here (bytes
beyond the watermark are never exposed). -/
def BufferedReader.withCapacity {ρ : Type} (c : Nat) (inner : ρ) : BufferedReader ρ :=
  { inner := inner, buf := List.replicate c 0, pos := 0, cap := 0 }

/-- Method `fill` of the `Buffer` impl: when the buffer is exhausted
(`pos == cap`) it performs one `inner.read` into the whole buffer; a
successful read of `k` bytes overwrites `buf[0..k]` and sets `pos := 0`,
`cap := k`, while a `None` result changes nothing.  Returns the slice
`buf[pos..cap]` together with the updated reader. -/
def fillR {ρ : Type} (ops : ReaderOps ρ) (r : BufferedReader ρ) :
    List Byte × BufferedReader ρ :=
  if r.pos = r.cap then
    match ops.read r.inner r.buf.length with
    | (some bs, s') =>
        let r' : BufferedReader ρ :=
          { inner := s', buf := bs ++ r.buf.drop bs.length, pos := 0, cap := bs.length }
        (listSlice r'.buf r'.pos r'.cap, r')
    | (none, s') =>
        let r' : BufferedReader ρ := { r with inner := s' }
        (listSlice r'.buf r'.pos r'.cap, r')
  else (listSlice r.buf r.pos r.cap, r)

/-- Method `consume`: advances `pos` by `amt`; the `none` result models the
`assert!(self.pos <= self.cap)` failure.  No I/O is performed. -/
def consumeR {ρ : Type} (r : BufferedReader ρ) (amt : Nat) :
    Option (BufferedReader ρ) :=
  let r' : BufferedReader ρ := { r with pos := r.pos + amt }
  if r'.pos ≤ r'.cap then some r' else none

/-- Method `read` of the `Reader` impl: calls `fill`; on an empty slice it
returns `none` (end-of-stream); otherwise it copies
`min available.length destLen` bytes into the destination (returned here as
the list of bytes written) and advances `pos` by that count. -/
def readR {ρ : Type} (ops : ReaderOps ρ) (r : BufferedReader ρ) (destLen : Nat) :
    Option (List Byte) × BufferedReader ρ :=
  match fillR ops r with
  | (available, r1) =>
    if available.length = 0 then (none, r1)
    else
      let nread := min available.length destLen
      (some (available.take nread), { r1 with pos := r1.pos + nread })

/-- Method `eof` of the `Reader` impl: drained buffer and source eof. -/
def eofR {ρ : Type} (ops : ReaderOps ρ) (r : BufferedReader ρ) : Bool :=
  decide (r.pos = r.cap) && ops.eof r.inner

/-- In-memory source (`MemReader`) over its remaining bytes: `read` yields
`none` at end-of-stream and otherwise the first `min n remaining.length`
bytes (which is `Some` of zero bytes when the destination is empty);
`eof` is emptiness of the remainder. -/
def memOps : ReaderOps (List Byte) :=
  { read := fun src n => if src = [] then (none, src) else (some (src.take n), src.drop n)
    eof := fun src => src = [] }

/-- Scripted source used to count and script individual source reads: its
state is the list of its pending read results, one consumed per `read` call
(results are truncated to the destination length, as any well-formed source
writing into the given buffer is); `eof` when the script is exhausted. -/
def oracleOps : ReaderOps (List (Option (List Byte))) :=
  { read := fun s n =>
      match s with
      | [] => (none, [])
      | o :: rest => (o.map (fun bs => bs.take n), rest)
    eof := fun s => s = [] }

/-- Repeated `read` calls whose destination-buffer sizes are drawn from
`sizes`, stopping at the first end-of-stream result; returns all bytes
delivered, in order, together with the final reader. -/
def runReads {ρ : Type} (ops : ReaderOps ρ) :
    BufferedReader ρ → List Nat → List Byte × BufferedReader ρ
  | r, [] => ([], r)
  | r, n :: ns =>
    match readR ops r n with
    | (none, r') => ([], r')
    | (some bs, r') =>
      match runReads ops r' ns with
      | (rest, rf) => (bs ++ rest, rf)

/-- Repeated `read` calls recording every per-call result (the byte count is
the length of the recorded list, `none` is end-of-stream), as the unit test
of the source file does. -/
def runReadsTrace {ρ : Type} (ops : ReaderOps ρ) :
    BufferedReader ρ → List Nat → List (Option (List Byte)) × BufferedReader ρ
  | r, [] => ([], r)
  | r, n :: ns =>
    match readR ops r n with
    | (o, r') =>
      match runReadsTrace ops r' ns with
      | (os, rf) => (o :: os, rf)

/-- Bytes not yet delivered to callers of a reader over the in-memory source:
the unread buffered window followed by what is still inside the source. -/
def remainingR (r : BufferedReader (List Byte)) : List Byte :=
  listSlice r.buf r.pos r.cap ++ r.inner

/-- Structural invariant of the reader: `pos <= cap <= capacity`. -/
def InvR {ρ : Type} (r : BufferedReader ρ) : Prop :=
  r.pos ≤ r.cap ∧ r.cap ≤ r.buf.length

instance {ρ : Type} (r : BufferedReader ρ) : Decidable (InvR r) := by
  unfold InvR; infer_instance

/-- Well-formedness of a source: it never reports more bytes than fit in the
destination buffer it was handed. -/
def GoodOps {ρ : Type} (ops : ReaderOps ρ) : Prop :=
  ∀ s n bs s', ops.read s n = (some bs, s') → bs.length ≤ n

/-- State of `BufferedWriter`: `inner` records the write calls the sink has
received so far (in order, one entry per sink `write` call); `buf` is the
buffer storage (its length is the capacity); `pos` the write position. -/
structure BufferedWriter where
  inner : List (List Byte)
  buf : List Byte
  pos : Nat
deriving DecidableEq

/-- Constructor `BufferedWriter::with_capacity` over a fresh sink. -/
def BufferedWriter.withCapacity (c : Nat) : BufferedWriter :=
  { inner := [], buf := List.replicate c 0, pos := 0 }

/-- Private method `flush_buf`: when bytes are pending, sends `buf[0..pos]` to
the sink in one write call and resets `pos`; otherwise does nothing. -/
def flushBuf (w : BufferedWriter) : BufferedWriter :=
  if w.pos ≠ 0 then
    { w with inner := w.inner ++ [listSlice w.buf 0 w.pos], pos := 0 }
  else w

/-- Method `write` of the `Writer` impl: flushes the buffer first when the
incoming bytes would overflow the free capacity; bytes longer than the whole
buffer then go to the sink directly, otherwise they are copied into the
buffer at `pos` and `pos` advances. -/
def writeW (w : BufferedWriter) (bs : List Byte) : BufferedWriter :=
  let w1 := if w.pos + bs.length > w.buf.length then flushBuf w else w
  if bs.length > w1.buf.length then
    { w1 with inner := w1.inner ++ [bs] }
  else
    { w1 with buf := w1.buf.take w1.pos ++ bs ++ w1.buf.drop (w1.pos + bs.length)
            , pos := w1.pos + bs.length }

/-- Method `flush`: `flush_buf` followed by the sink's own `flush` (a no-op on
the recorded sink state, as for `MemWriter`). -/
def flushW (w : BufferedWriter) : BufferedWriter :=
  flushBuf w

/-- Sequence of writes folded into a writer. -/
def writeAll (w : BufferedWriter) (ws : List (List Byte)) : BufferedWriter :=
  ws.foldl writeW w

/-- Bytes currently pending in the writer's buffer. -/
def pending (w : BufferedWriter) : List Byte :=
  listSlice w.buf 0 w.pos

/-- Flattened byte stream the sink has received. -/
def sinkBytes (w : BufferedWriter) : List Byte :=
  w.inner.flatten

/-- Structural invariant of the writer: `pos` stays within the buffer. -/
def WInv (w : BufferedWriter) : Prop := w.pos ≤ w.buf.length

instance (w : BufferedWriter) : Decidable (WInv w) := by
  unfold WInv; infer_instance

/-- Iterator method `rposition` specialised to lists: the index of the LAST
element satisfying the predicate. -/
def rposition (p : Byte → Bool) : List Byte → Option Nat
  | [] => none
  | b :: bs =>
    match rposition p bs with
    | some i => some (i + 1)
    | none => if p b then some 0 else none

/-- Newline test used by `LineBufferedWriter`. -/
def isNewline (b : Byte) : Bool := b == 10

/-- State of `LineBufferedWriter`: one wrapped `BufferedWriter`. -/
structure LineBufferedWriter where
  inner : BufferedWriter
deriving DecidableEq

/-- Constructor `LineBufferedWriter::new`: inner capacity fixed at 1024. -/
def LineBufferedWriter.new : LineBufferedWriter :=
  { inner := BufferedWriter.withCapacity 1024 }

/-- Method `write` of `LineBufferedWriter`: write through the inner writer up
to and including the last newline, flush, then write the remainder; with no
newline the whole chunk is passed through to the inner writer. -/
def lineWrite (w : LineBufferedWriter) (bs : List Byte) : LineBufferedWriter :=
  match rposition isNewline bs with
  | some i =>
    let w1 := writeW w.inner (bs.take (i + 1))
    let w2 := flushW w1
    let w3 := writeW w2 (bs.drop (i + 1))
    { inner := w3 }
  | none => { inner := writeW w.inner bs }

/-- Method `flush` of `LineBufferedWriter`: delegates to the inner writer. -/
def lineFlush (w : LineBufferedWriter) : LineBufferedWriter :=
  { inner := flushW w.inner }

example : (readR memOps (BufferedReader.withCapacity 2 [0, 1, 2, 3, 4]) 3).1 = some [0, 1] := by
  decide

example : sinkBytes (flushW (writeAll (BufferedWriter.withCapacity 2) [[0, 1], [2], [3]])) = [0, 1, 2, 3] := by
  decide

/-! ### Basic facts about slices -/

theorem listSlice_length (l : List Byte) (a b : Nat) :
    (listSlice l a b).length = min b l.length - a := by
  simp [listSlice]

theorem listSlice_eq_nil_iff (l : List Byte) (a b : Nat) :
    listSlice l a b = [] ↔ min b l.length ≤ a := by
  rw [← List.length_eq_zero, listSlice_length]
  omega

theorem listSlice_zero_len_append (bs t : List Byte) :
    listSlice (bs ++ t) 0 bs.length = bs := by
  simp [listSlice]

theorem listSlice_drained (l : List Byte) (a : Nat) : listSlice l a a = [] := by
  rw [listSlice_eq_nil_iff]
  exact Nat.le_trans (Nat.min_le_left _ _) (Nat.le_refl _)

theorem listSlice_take_add (l : List Byte) (p c m : Nat) :
    (listSlice l p c).take m ++ listSlice l (p + m) c = listSlice l p c := by
  have h : listSlice l (p + m) c = (listSlice l p c).drop m := by
    simp [listSlice, List.drop_drop, Nat.add_comm]
  rw [h, List.take_append_drop]

/-! ### Case analysis of `fill` -/

theorem fillR_not_drained {ρ : Type} (ops : ReaderOps ρ) (r : BufferedReader ρ)
    (h : r.pos ≠ r.cap) :
    fillR ops r = (listSlice r.buf r.pos r.cap, r) := by
  unfold fillR
  rw [if_neg h]

theorem fillR_drained_none {ρ : Type} (ops : ReaderOps ρ) (r : BufferedReader ρ) (s' : ρ)
    (h : r.pos = r.cap) (hr : ops.read r.inner r.buf.length = (none, s')) :
    fillR ops r = ([], { r with inner := s' }) := by
  unfold fillR
  rw [if_pos h, hr]
  simp [h, listSlice_drained]

theorem fillR_drained_some {ρ : Type} (ops : ReaderOps ρ) (r : BufferedReader ρ)
    (bs : List Byte) (s' : ρ)
    (h : r.pos = r.cap) (hr : ops.read r.inner r.buf.length = (some bs, s')) :
    fillR ops r =
      (bs, { inner := s', buf := bs ++ r.buf.drop bs.length, pos := 0, cap := bs.length }) := by
  unfold fillR
  rw [if_pos h, hr]
  simp [listSlice_zero_len_append]

theorem readR_of_fill {ρ : Type} (ops : ReaderOps ρ) (r : BufferedReader ρ) (n : Nat)
    (a : List Byte) (r1 : BufferedReader ρ) (hf : fillR ops r = (a, r1)) :
    readR ops r n =
      if a.length = 0 then (none, r1)
      else (some (a.take (min a.length n)), { r1 with pos := r1.pos + min a.length n }) := by
  unfold readR
  rw [hf]

theorem fillR_window {ρ : Type} (ops : ReaderOps ρ) (r : BufferedReader ρ) :
    (fillR ops r).1 =
      listSlice (fillR ops r).2.buf (fillR ops r).2.pos (fillR ops r).2.cap := by
  by_cases h : r.pos = r.cap
  · rcases hr : ops.read r.inner r.buf.length with ⟨o, s'⟩
    cases o with
    | none =>
      rw [fillR_drained_none ops r s' h hr]
      simp [h, listSlice_drained]
    | some bs =>
      rw [fillR_drained_some ops r bs s' h hr]
      simp [listSlice_zero_len_append]
  · rw [fillR_not_drained ops r h]

/-! ### The reader over the in-memory source -/

theorem memOps_good : GoodOps memOps := by
  intro s n bs s' h
  by_cases hs : s = []
  · simp [memOps, hs] at h
  · simp [memOps, hs] at h
    rw [← h.1]
    simp [List.length_take]

theorem remainingR_withCapacity (c : Nat) (S : List Byte) :
    remainingR (BufferedReader.withCapacity c S) = S := by
  simp [remainingR, BufferedReader.withCapacity, listSlice]

theorem invR_withCapacity {ρ : Type} (c : Nat) (s : ρ) :
    InvR (BufferedReader.withCapacity c s) := by
  simp [InvR, BufferedReader.withCapacity]

theorem fillR_mem_inv (r : BufferedReader (List Byte)) (h : InvR r) :
    InvR (fillR memOps r).2 ∧ (fillR memOps r).2.buf.length = r.buf.length ∧
      remainingR (fillR memOps r).2 = remainingR r := by
  by_cases hpc : r.pos = r.cap
  · by_cases hs : r.inner = []
    · have hr : memOps.read r.inner r.buf.length = (none, r.inner) := by
        simp [memOps, hs]
      rw [fillR_drained_none memOps r r.inner hpc hr]
      exact ⟨h, rfl, rfl⟩
    · have hr : memOps.read r.inner r.buf.length =
          (some (r.inner.take r.buf.length), r.inner.drop r.buf.length) := by
        simp [memOps, hs]
      rw [fillR_drained_some memOps r _ _ hpc hr]
      have hlen : (r.inner.take r.buf.length).length ≤ r.buf.length := by
        simp [List.length_take]
      refine ⟨⟨Nat.zero_le _, ?_⟩, ?_, ?_⟩
      · simp only [List.length_append, List.length_drop]
        omega
      · simp only [List.length_append, List.length_drop]
        omega
      · unfold remainingR
        rw [listSlice_zero_len_append, hpc, listSlice_drained, List.nil_append]
        exact List.take_append_drop _ _
  · rw [fillR_not_drained memOps r hpc]
    exact ⟨h, rfl, rfl⟩

theorem fillR_mem_empty_iff (r : BufferedReader (List Byte)) (h : InvR r)
    (hc : 1 ≤ r.buf.length) :
    ((fillR memOps r).1 = [] ↔ remainingR r = []) := by
  by_cases hpc : r.pos = r.cap
  · by_cases hs : r.inner = []
    · have hr : memOps.read r.inner r.buf.length = (none, r.inner) := by
        simp [memOps, hs]
      rw [fillR_drained_none memOps r r.inner hpc hr]
      simp [remainingR, listSlice_drained, hpc, hs]
    · have hr : memOps.read r.inner r.buf.length =
          (some (r.inner.take r.buf.length), r.inner.drop r.buf.length) := by
        simp [memOps, hs]
      rw [fillR_drained_some memOps r _ _ hpc hr]
      have h1 : ¬ (r.inner.take r.buf.length = []) := by
        rw [List.take_eq_nil_iff]
        intro hcon
        rcases hcon with h0 | h0
        · omega
        · exact hs h0
      have h2 : ¬ (remainingR r = []) := by
        unfold remainingR
        intro hcon
        exact hs (List.append_eq_nil.mp hcon).2
      simp [h1, h2]
  · rw [fillR_not_drained memOps r hpc]
    have h1 : ¬ listSlice r.buf r.pos r.cap = [] := by
      rw [listSlice_eq_nil_iff]
      rcases h with ⟨h1, h2⟩
      omega
    simp [remainingR, h1]

theorem fillR_mem_empty_of_remaining (r : BufferedReader (List Byte)) (h : InvR r)
    (hrem : remainingR r = []) : (fillR memOps r).1 = [] := by
  rcases List.append_eq_nil.mp hrem with ⟨hsl, hs⟩
  have hpc : r.pos = r.cap := by
    rw [listSlice_eq_nil_iff] at hsl
    rcases h with ⟨h1, h2⟩
    omega
  have hr : memOps.read r.inner r.buf.length = (none, r.inner) := by
    simp [memOps, hs]
  rw [fillR_drained_none memOps r r.inner hpc hr]

theorem readR_mem_none_spec (r : BufferedReader (List Byte)) (n : Nat) (h : InvR r)
    (r' : BufferedReader (List Byte)) (hres : readR memOps r n = (none, r')) :
    remainingR r' = remainingR r ∧ InvR r' ∧ r'.buf.length = r.buf.length := by
  rcases hf : fillR memOps r with ⟨a, r1⟩
  have hspec := fillR_mem_inv r h
  rw [hf] at hspec
  rw [readR_of_fill memOps r n a r1 hf] at hres
  by_cases ha : a.length = 0
  · rw [if_pos ha] at hres
    cases hres
    exact ⟨hspec.2.2, hspec.1, hspec.2.1⟩
  · rw [if_neg ha] at hres
    cases hres

theorem readR_mem_some_spec (r : BufferedReader (List Byte)) (n : Nat) (h : InvR r)
    (bs : List Byte) (r' : BufferedReader (List Byte))
    (hres : readR memOps r n = (some bs, r')) :
    bs ++ remainingR r' = remainingR r ∧ InvR r' ∧ r'.buf.length = r.buf.length ∧
      (1 ≤ n → bs ≠ []) := by
  rcases hf : fillR memOps r with ⟨a, r1⟩
  have hspec := fillR_mem_inv r h
  rw [hf] at hspec
  have hwin := fillR_window memOps r
  rw [hf] at hwin
  dsimp only at hspec hwin
  rw [readR_of_fill memOps r n a r1 hf] at hres
  by_cases ha : a.length = 0
  · rw [if_pos ha] at hres
    cases hres
  · rw [if_neg ha] at hres
    simp only [Prod.mk.injEq, Option.some.injEq] at hres
    obtain ⟨hbs, hr'⟩ := hres
    subst hbs
    subst hr'
    obtain ⟨⟨hi1, hi2⟩, hblen, hrem⟩ := hspec
    have halen : a.length = min r1.cap r1.buf.length - r1.pos := by
      rw [hwin, listSlice_length]
    refine ⟨?_, ⟨?_, hi2⟩, hblen, ?_⟩
    · rw [← hrem]
      simp only [remainingR]
      rw [hwin]
      rw [← List.append_assoc, listSlice_take_add]
    · show r1.pos + min a.length n ≤ r1.cap
      omega
    · intro hn hnil
      have hlen0 := congrArg List.length hnil
      simp only [List.length_take, List.length_nil] at hlen0
      omega

theorem readR_mem_progress (r : BufferedReader (List Byte)) (n : Nat) (h : InvR r)
    (hc : 1 ≤ r.buf.length) (hrem : remainingR r ≠ []) :
    ∃ bs r', readR memOps r n = (some bs, r') := by
  rcases hf : fillR memOps r with ⟨a, r1⟩
  have hemp := fillR_mem_empty_iff r h hc
  rw [hf] at hemp
  have ha : ¬ a.length = 0 := by
    intro h0
    exact hrem (hemp.mp (List.eq_nil_of_length_eq_zero h0))
  rw [readR_of_fill memOps r n a r1 hf, if_neg ha]
  exact ⟨_, _, rfl⟩

theorem readR_mem_eos (r : BufferedReader (List Byte)) (n : Nat) (h : InvR r)
    (hrem : remainingR r = []) : (readR memOps r n).1 = none := by
  rcases hf : fillR memOps r with ⟨a, r1⟩
  have ha : a = [] := by
    have := fillR_mem_empty_of_remaining r h hrem
    rw [hf] at this
    exact this
  rw [readR_of_fill memOps r n a r1 hf, if_pos (by simp [ha])]

theorem eofR_mem_iff (r : BufferedReader (List Byte)) (h : InvR r) :
    eofR memOps r = true ↔ remainingR r = [] := by
  obtain ⟨h1, h2⟩ := h
  simp only [eofR, memOps, Bool.and_eq_true, decide_eq_true_eq]
  unfold remainingR
  rw [List.append_eq_nil, listSlice_eq_nil_iff]
  constructor
  · rintro ⟨e1, e2⟩
    exact ⟨by omega, e2⟩
  · rintro ⟨e1, e2⟩
    exact ⟨by omega, e2⟩

theorem runReads_sound (sizes : List Nat) :
    ∀ r : BufferedReader (List Byte), InvR r →
      (runReads memOps r sizes).1 ++ remainingR (runReads memOps r sizes).2 = remainingR r ∧
        InvR (runReads memOps r sizes).2 ∧
        (runReads memOps r sizes).2.buf.length = r.buf.length := by
  induction sizes with
  | nil =>
    intro r h
    exact ⟨rfl, h, rfl⟩
  | cons n ns ih =>
    intro r h
    rcases hres : readR memOps r n with ⟨o, r'⟩
    cases o with
    | none =>
      have hn := readR_mem_none_spec r n h r' hres
      simp only [runReads, hres]
      exact ⟨hn.1, hn.2.1, hn.2.2⟩
    | some bs =>
      have hsm := readR_mem_some_spec r n h bs r' hres
      rcases hrun : runReads memOps r' ns with ⟨rest, rf⟩
      have ihr := ih r' hsm.2.1
      rw [hrun] at ihr
      simp only [runReads, hres, hrun]
      refine ⟨?_, ihr.2.1, ihr.2.2.trans hsm.2.2.1⟩
      rw [List.append_assoc, ihr.1, hsm.1]

theorem runReads_complete (sizes : List Nat) :
    ∀ r : BufferedReader (List Byte), InvR r → 1 ≤ r.buf.length →
      (∀ n ∈ sizes, 1 ≤ n) → (remainingR r).length ≤ sizes.length →
      remainingR (runReads memOps r sizes).2 = [] := by
  induction sizes with
  | nil =>
    intro r _ _ _ hlen
    exact List.eq_nil_of_length_eq_zero (Nat.le_zero.mp hlen)
  | cons n ns ih =>
    intro r h hc hsz hlen
    by_cases hrem : remainingR r = []
    · rcases hres : readR memOps r n with ⟨o, r'⟩
      have ho : o = none := by
        have := readR_mem_eos r n h hrem
        rw [hres] at this
        exact this
      subst ho
      have hn := readR_mem_none_spec r n h r' hres
      simp only [runReads, hres]
      rw [hn.1, hrem]
    · obtain ⟨bs, r', hres⟩ := readR_mem_progress r n h hc hrem
      have hsm := readR_mem_some_spec r n h bs r' hres
      have hb1 : 0 < bs.length :=
        List.length_pos.mpr (hsm.2.2.2 (hsz n (List.mem_cons_self n ns)))
      have hlen' : (remainingR r').length ≤ ns.length := by
        have hcg := congrArg List.length hsm.1
        simp only [List.length_append] at hcg
        simp only [List.length_cons] at hlen
        omega
      have ihr := ih r' hsm.2.1 (by rw [hsm.2.2.1]; exact hc)
        (fun m hm => hsz m (List.mem_cons_of_mem n hm)) hlen'
      rcases hrun : runReads memOps r' ns with ⟨rest, rf⟩
      rw [hrun] at ihr
      simp only [runReads, hres, hrun]
      exact ihr

/-! ### Claim C1 -/

/-- C1, amended: the buffer capacity must be at least one byte.  For every
capacity `c ≥ 1` and every source byte sequence `S`, reading `S` through a
`BufferedReader` of capacity `c` by repeated `read()` calls with arbitrarily
small (positive) destination buffers yields exactly the bytes of `S` in
order, and after any prefix of the calls `eof()` returns true exactly when
the last byte of `S` has been delivered (so true only after that point). -/
theorem c1_reader_reproduces_source (c : Nat) (S : List Byte) (sizes : List Nat)
    (hc : 1 ≤ c) (hsz : ∀ n ∈ sizes, 1 ≤ n) (hlen : S.length ≤ sizes.length) :
    (runReads memOps (BufferedReader.withCapacity c S) sizes).1 = S ∧
    ∀ pre suf, sizes = pre ++ suf →
      (eofR memOps (runReads memOps (BufferedReader.withCapacity c S) pre).2 = true ↔
        (runReads memOps (BufferedReader.withCapacity c S) pre).1 = S) := by
  have hinv := invR_withCapacity c S
  have hbuf : (BufferedReader.withCapacity c S).buf.length = c := by
    simp [BufferedReader.withCapacity]
  have hrem := remainingR_withCapacity c S
  constructor
  · have hsound := runReads_sound sizes (BufferedReader.withCapacity c S) hinv
    have hcomp := runReads_complete sizes (BufferedReader.withCapacity c S) hinv
      (by rw [hbuf]; exact hc) hsz (by rw [hrem]; exact hlen)
    have hout := hsound.1
    rw [hcomp, hrem, List.append_nil] at hout
    exact hout
  · intro pre suf hsplit
    have hsound := runReads_sound pre (BufferedReader.withCapacity c S) hinv
    have heof := eofR_mem_iff (runReads memOps (BufferedReader.withCapacity c S) pre).2
      hsound.2.1
    rw [heof]
    have hstream := hsound.1
    rw [hrem] at hstream
    constructor
    · intro hnil
      rw [hnil, List.append_nil] at hstream
      exact hstream
    · intro hout
      rw [hout] at hstream
      have hsS : S ++ remainingR (runReads memOps (BufferedReader.withCapacity c S) pre).2
          = S ++ [] := by
        rw [List.append_nil]
        exact hstream
      exact List.append_cancel_left hsS

/-- C1 counterexample: at buffer capacity 0 (the claim quantifies over every
capacity) with source `[0]`, repeated reads with positive destination sizes
deliver no byte at all — `read` reports end-of-stream immediately — so the
run does not reproduce the source. -/
theorem c1_counterexample_capacity_zero :
    (runReads memOps (BufferedReader.withCapacity 0 [0]) [1, 1]).1 = [] ∧
    ¬ (runReads memOps (BufferedReader.withCapacity 0 [0]) [1, 1]).1 = [0] := by
  decide

/-- Witness: the amended C1 theorem applied to capacity 2, source
`[0,1,2,3,4]` and read sizes `3,1,3,3,1`. -/
theorem c1_witness :
    (runReads memOps (BufferedReader.withCapacity 2 [0, 1, 2, 3, 4]) [3, 1, 3, 3, 1]).1
      = [0, 1, 2, 3, 4] :=
  (c1_reader_reproduces_source 2 [0, 1, 2, 3, 4] [3, 1, 3, 3, 1] (by decide)
    (by decide) (by decide)).1

/-! ### Writer lemmas -/

theorem flushBuf_spec (w : BufferedWriter) :
    (flushBuf w).pos = 0 ∧ (flushBuf w).buf = w.buf ∧
      sinkBytes (flushBuf w) = sinkBytes w ++ pending w ∧
      pending (flushBuf w) = [] := by
  unfold flushBuf
  by_cases h : w.pos ≠ 0
  · rw [if_pos h]
    refine ⟨rfl, rfl, ?_, ?_⟩
    · simp [sinkBytes, pending]
    · simp [pending, listSlice]
  · rw [if_neg h]
    push_neg at h
    refine ⟨h, rfl, ?_, ?_⟩
    · simp [pending, h, listSlice]
    · simp [pending, h, listSlice]

theorem writeW_as (w : BufferedWriter) (bs : List Byte) (w1 : BufferedWriter)
    (h1 : (if w.pos + bs.length > w.buf.length then flushBuf w else w) = w1) :
    writeW w bs =
      if bs.length > w1.buf.length then { w1 with inner := w1.inner ++ [bs] }
      else { w1 with buf := w1.buf.take w1.pos ++ bs ++ w1.buf.drop (w1.pos + bs.length),
                     pos := w1.pos + bs.length } := by
  unfold writeW
  rw [h1]

theorem writeW_cases (w : BufferedWriter) (bs : List Byte) :
    (w.buf.length < bs.length ∧
      writeW w bs = { flushBuf w with inner := (flushBuf w).inner ++ [bs] }) ∨
    (bs.length ≤ w.buf.length ∧ w.buf.length < w.pos + bs.length ∧
      writeW w bs = { flushBuf w with
        buf := (flushBuf w).buf.take (flushBuf w).pos ++ bs ++
               (flushBuf w).buf.drop ((flushBuf w).pos + bs.length),
        pos := (flushBuf w).pos + bs.length }) ∨
    (w.pos + bs.length ≤ w.buf.length ∧
      writeW w bs = { w with buf := w.buf.take w.pos ++ bs ++ w.buf.drop (w.pos + bs.length),
                             pos := w.pos + bs.length }) := by
  have hbuf := (flushBuf_spec w).2.1
  by_cases hov : w.pos + bs.length > w.buf.length
  · by_cases hbig : bs.length > (flushBuf w).buf.length
    · left
      refine ⟨by rw [hbuf] at hbig; exact hbig, ?_⟩
      rw [writeW_as w bs (flushBuf w) (if_pos hov), if_pos hbig]
    · right; left
      rw [hbuf] at hbig
      refine ⟨by omega, by omega, ?_⟩
      rw [writeW_as w bs (flushBuf w) (if_pos hov), if_neg (by rw [hbuf]; omega)]
  · right; right
    refine ⟨by omega, ?_⟩
    rw [writeW_as w bs w (if_neg hov), if_neg (by omega)]

theorem pending_buffer_branch (w1 : BufferedWriter) (bs : List Byte)
    (h : w1.pos + bs.length ≤ w1.buf.length) :
    pending ({ w1 with buf := w1.buf.take w1.pos ++ bs ++ w1.buf.drop (w1.pos + bs.length),
                       pos := w1.pos + bs.length } : BufferedWriter) = pending w1 ++ bs ∧
    ({ w1 with buf := w1.buf.take w1.pos ++ bs ++ w1.buf.drop (w1.pos + bs.length),
               pos := w1.pos + bs.length } : BufferedWriter).buf.length = w1.buf.length := by
  have htl : (w1.buf.take w1.pos).length = w1.pos := by
    rw [List.length_take]
    omega
  constructor
  · show listSlice (w1.buf.take w1.pos ++ bs ++ w1.buf.drop (w1.pos + bs.length)) 0
        (w1.pos + bs.length) = pending w1 ++ bs
    unfold listSlice
    rw [List.drop_zero, List.append_assoc]
    rw [List.take_append_eq_append_take]
    rw [htl]
    have h2 : w1.pos + bs.length - w1.pos = bs.length := by omega
    rw [h2, List.take_append_eq_append_take]
    have h3 : bs.length - bs.length = 0 := by omega
    rw [h3, List.take_length, List.take_zero, List.append_nil]
    unfold pending listSlice
    rw [List.drop_zero]
    have h4 : w1.buf.take w1.pos = (w1.buf.take w1.pos).take (w1.pos + bs.length) := by
      rw [List.take_take]
      congr 1
      omega
    rw [← h4]
  · simp only [List.length_append, List.length_take, List.length_drop]
    omega

theorem writeW_spec (w : BufferedWriter) (bs : List Byte) (_h : WInv w) :
    sinkBytes (writeW w bs) ++ pending (writeW w bs) = (sinkBytes w ++ pending w) ++ bs ∧
      WInv (writeW w bs) ∧ (writeW w bs).buf.length = w.buf.length ∧
      (w.pos + bs.length ≤ w.buf.length →
        (writeW w bs).inner = w.inner ∧ pending (writeW w bs) = pending w ++ bs) ∧
      (w.buf.length < bs.length → pending (writeW w bs) = []) := by
  obtain ⟨hp0, hbuf, hsink, hpend⟩ := flushBuf_spec w
  rcases writeW_cases w bs with ⟨hbig, he⟩ | ⟨hle, hov, he⟩ | ⟨hfit, he⟩
  · rw [he]
    have hpend' : pending ({ flushBuf w with inner := (flushBuf w).inner ++ [bs] } :
        BufferedWriter) = [] := by
      show listSlice (flushBuf w).buf 0 (flushBuf w).pos = []
      rw [hp0]
      exact listSlice_drained _ 0
    have hsink' : sinkBytes ({ flushBuf w with inner := (flushBuf w).inner ++ [bs] } :
        BufferedWriter) = sinkBytes (flushBuf w) ++ bs := by
      show ((flushBuf w).inner ++ [bs]).flatten = _
      simp [sinkBytes]
    refine ⟨?_, ?_, ?_, ?_, fun _ => hpend'⟩
    · rw [hpend', hsink', List.append_nil, hsink]
    · show (flushBuf w).pos ≤ (flushBuf w).buf.length
      rw [hp0]
      exact Nat.zero_le _
    · show (flushBuf w).buf.length = w.buf.length
      rw [hbuf]
    · intro hc
      omega
  · rw [he]
    have hfit1 : (flushBuf w).pos + bs.length ≤ (flushBuf w).buf.length := by
      rw [hp0, hbuf]
      omega
    obtain ⟨hpb, hlb⟩ := pending_buffer_branch (flushBuf w) bs hfit1
    refine ⟨?_, ?_, ?_, ?_, ?_⟩
    · rw [hpb, hpend]
      show sinkBytes (flushBuf w) ++ ([] ++ bs) = (sinkBytes w ++ pending w) ++ bs
      rw [hsink, List.nil_append]
    · show (flushBuf w).pos + bs.length ≤ _
      rw [hlb]
      exact hfit1
    · rw [hlb, hbuf]
    · intro hc
      omega
    · intro hc
      omega
  · rw [he]
    obtain ⟨hpb, hlb⟩ := pending_buffer_branch w bs hfit
    refine ⟨?_, ?_, ?_, ?_, ?_⟩
    · rw [hpb]
      show sinkBytes w ++ (pending w ++ bs) = (sinkBytes w ++ pending w) ++ bs
      rw [List.append_assoc]
    · show w.pos + bs.length ≤ _
      rw [hlb]
      exact hfit
    · rw [hlb]
    · intro _
      exact ⟨rfl, hpb⟩
    · intro hc
      omega

theorem writeAll_spec (ws : List (List Byte)) :
    ∀ w : BufferedWriter, WInv w →
      sinkBytes (writeAll w ws) ++ pending (writeAll w ws)
          = (sinkBytes w ++ pending w) ++ ws.flatten ∧
        WInv (writeAll w ws) := by
  induction ws with
  | nil =>
    intro w h
    exact ⟨by simp [writeAll], h⟩
  | cons b rest ih =>
    intro w h
    have hw := writeW_spec w b h
    have ihw := ih (writeW w b) hw.2.1
    unfold writeAll at ihw ⊢
    simp only [List.foldl_cons]
    refine ⟨?_, ihw.2⟩
    rw [ihw.1, hw.1, List.flatten_cons, List.append_assoc]

theorem lineWrite_some (w : LineBufferedWriter) (bs : List Byte) (i : Nat)
    (h : rposition isNewline bs = some i) :
    lineWrite w bs =
      { inner := writeW (flushW (writeW w.inner (bs.take (i + 1)))) (bs.drop (i + 1)) } := by
  unfold lineWrite
  rw [h]

theorem lineWrite_none (w : LineBufferedWriter) (bs : List Byte)
    (h : rposition isNewline bs = none) :
    lineWrite w bs = { inner := writeW w.inner bs } := by
  unfold lineWrite
  rw [h]

theorem flushW_after_write (w : BufferedWriter) (bs : List Byte) (h : WInv w) :
    sinkBytes (flushW (writeW w bs)) = (sinkBytes w ++ pending w) ++ bs ∧
      pending (flushW (writeW w bs)) = [] ∧
      (flushW (writeW w bs)).pos = 0 ∧
      (flushW (writeW w bs)).buf.length = w.buf.length ∧
      WInv (flushW (writeW w bs)) := by
  have hw := writeW_spec w bs h
  obtain ⟨hp0, hbuf, hsink, hpend⟩ := flushBuf_spec (writeW w bs)
  refine ⟨?_, hpend, hp0, ?_, ?_⟩
  · show sinkBytes (flushBuf (writeW w bs)) = _
    rw [hsink, hw.1]
  · show (flushBuf (writeW w bs)).buf.length = w.buf.length
    rw [hbuf]
    exact hw.2.2.1
  · show (flushBuf (writeW w bs)).pos ≤ (flushBuf (writeW w bs)).buf.length
    rw [hp0]
    exact Nat.zero_le _

theorem rposition_replicate_zero (n : Nat) :
    rposition isNewline (List.replicate n 0) = none := by
  induction n with
  | zero => rfl
  | succ k ih => simp [List.replicate_succ, rposition, ih, isNewline]

theorem rposition_newline_head (n : Nat) :
    rposition isNewline (10 :: List.replicate n 0) = some 0 := by
  simp [rposition, rposition_replicate_zero, isNewline]

/-! ### Claim C2 -/

/-- C2: for every capacity `c` and every sequence of writes `w1..wn` into a
`BufferedWriter` of capacity `c` followed by a final `flush()`, the byte
stream the sink has received is exactly the concatenation of the writes, in
order, however the writes straddle buffer boundaries. -/
theorem c2_writer_concatenation (c : Nat) (ws : List (List Byte)) :
    sinkBytes (flushW (writeAll (BufferedWriter.withCapacity c) ws)) = ws.flatten := by
  have h0 : WInv (BufferedWriter.withCapacity c) := by
    simp [WInv, BufferedWriter.withCapacity]
  have hall := writeAll_spec ws (BufferedWriter.withCapacity c) h0
  obtain ⟨_, _, hsink, hpend⟩ := flushBuf_spec (writeAll (BufferedWriter.withCapacity c) ws)
  show sinkBytes (flushBuf (writeAll (BufferedWriter.withCapacity c) ws)) = ws.flatten
  rw [hsink, hall.1]
  simp [sinkBytes, pending, BufferedWriter.withCapacity, listSlice]

/-! ### Claim C5 -/

/-- C5: `write` flushes the buffered bytes first only when appending would
overflow the free capacity — when the incoming bytes fit, the sink sees no
write at all and the bytes are only copied into the buffer — and a write
larger than the whole buffer capacity then goes to the sink in exactly one
direct pass-through write, preceded by at most one flush of prior content
(none when the buffer was empty). -/
theorem c5_large_write_single_pass (w : BufferedWriter) (bs : List Byte) :
    (w.buf.length < bs.length →
      writeW w bs = { inner := w.inner ++ (if w.pos = 0 then [] else [pending w]) ++ [bs],
                      buf := w.buf, pos := 0 }) ∧
    (w.pos + bs.length ≤ w.buf.length →
      writeW w bs = { w with buf := w.buf.take w.pos ++ bs ++ w.buf.drop (w.pos + bs.length),
                             pos := w.pos + bs.length }) := by
  constructor
  · intro hbig
    rcases writeW_cases w bs with ⟨_, he⟩ | ⟨hle, _, _⟩ | ⟨hfit, _⟩
    · rw [he]
      by_cases hp : w.pos = 0
      · have hfb : flushBuf w = w := by
          unfold flushBuf
          rw [if_neg (by omega)]
        rw [hfb, if_pos hp]
        simp [hp]
      · rw [if_neg hp]
        unfold flushBuf
        rw [if_pos hp]
        simp [pending]
    · omega
    · omega
  · intro hfit
    rcases writeW_cases w bs with ⟨hbig, _⟩ | ⟨_, hov, _⟩ | ⟨_, he⟩
    · omega
    · omega
    · exact he

/-- Witness: C5 applied to a capacity-2 writer holding one pending byte and a
three-byte write (one flush of the pending byte, then one direct write), and
to a fitting one-byte write (no sink write at all). -/
theorem c5_witness :
    writeW ⟨[[9]], [7, 7], 1⟩ [1, 2, 3] = ⟨[[9], [7], [1, 2, 3]], [7, 7], 0⟩ ∧
    writeW ⟨[[9]], [7, 7], 1⟩ [4] = ⟨[[9]], [7, 4], 2⟩ := by
  constructor
  · have h := (c5_large_write_single_pass ⟨[[9]], [7, 7], 1⟩ [1, 2, 3]).1 (by decide)
    rw [h]
    decide
  · have h := (c5_large_write_single_pass ⟨[[9]], [7, 7], 1⟩ [4]).2 (by decide)
    rw [h]
    decide

/-! ### Claim C8 -/

/-- C8: `flush` on a writer with no pending bytes is a no-op, and flushing
twice in a row equals flushing once — the second call changes nothing and in
particular causes no additional sink-side write. -/
theorem c8_flush_idempotent (w : BufferedWriter) :
    (w.pos = 0 → flushW w = w) ∧
    flushW (flushW w) = flushW w ∧
    (flushW (flushW w)).inner = (flushW w).inner := by
  have hkey : ∀ v : BufferedWriter, v.pos = 0 → flushW v = v := by
    intro v hv
    show flushBuf v = v
    unfold flushBuf
    rw [if_neg (by omega)]
  refine ⟨hkey w, ?_, ?_⟩
  · exact hkey (flushW w) (flushBuf_spec w).1
  · rw [hkey (flushW w) (flushBuf_spec w).1]

/-- Witness: C8 applied to a writer with an empty buffer: flush is a no-op. -/
theorem c8_witness :
    flushW ⟨[[1]], [0, 0], 0⟩ = ⟨[[1]], [0, 0], 0⟩ :=
  (c8_flush_idempotent ⟨[[1]], [0, 0], 0⟩).1 rfl

/-! ### Claim C7 -/

/-- C7, amended: `LineBufferedWriter::write` finds the last newline byte; if
one exists at index `i` it writes `bytes[0..=i]` through the inner writer and
immediately flushes, so everything up to and including that newline reaches
the sink; the remainder `bytes[i+1..]` is then buffered without flushing
provided it fits in the inner buffer (whose capacity is 1024); a remainder
larger than the inner buffer is instead passed straight through to the sink,
leaving the buffer empty.  If no newline is present the whole chunk is passed
to the inner `BufferedWriter` unflushed. -/
theorem c7_line_write (w : LineBufferedWriter) (bs : List Byte) (hw : WInv w.inner) :
    (rposition isNewline bs = none → lineWrite w bs = { inner := writeW w.inner bs }) ∧
    (∀ i, rposition isNewline bs = some i →
      ((bs.drop (i + 1)).length ≤ w.inner.buf.length →
        sinkBytes (lineWrite w bs).inner
            = sinkBytes w.inner ++ pending w.inner ++ bs.take (i + 1) ∧
          pending (lineWrite w bs).inner = bs.drop (i + 1)) ∧
      (w.inner.buf.length < (bs.drop (i + 1)).length →
        sinkBytes (lineWrite w bs).inner
            = sinkBytes w.inner ++ pending w.inner ++ bs.take (i + 1) ++ bs.drop (i + 1) ∧
          pending (lineWrite w bs).inner = [])) := by
  constructor
  · intro hnone
    exact lineWrite_none w bs hnone
  · intro i hsome
    rw [lineWrite_some w bs i hsome]
    obtain ⟨hsink2, hpend2, hpos2, hlen2, hinv2⟩ :=
      flushW_after_write w.inner (bs.take (i + 1)) hw
    constructor
    · intro hfits
      have hcond : (flushW (writeW w.inner (bs.take (i + 1)))).pos + (bs.drop (i + 1)).length
          ≤ (flushW (writeW w.inner (bs.take (i + 1)))).buf.length := by
        rw [hpos2, hlen2]
        simpa using hfits
      obtain ⟨hinner3, hpend3⟩ :=
        (writeW_spec (flushW (writeW w.inner (bs.take (i + 1)))) (bs.drop (i + 1))
          hinv2).2.2.2.1 hcond
      constructor
      · have hs : sinkBytes (writeW (flushW (writeW w.inner (bs.take (i + 1)))) (bs.drop (i + 1)))
            = sinkBytes (flushW (writeW w.inner (bs.take (i + 1)))) :=
          congrArg List.flatten hinner3
        rw [hs, hsink2]
      · show pending (writeW (flushW (writeW w.inner (bs.take (i + 1)))) (bs.drop (i + 1))) = _
        rw [hpend3, hpend2, List.nil_append]
    · intro hbig
      have hcond : (flushW (writeW w.inner (bs.take (i + 1)))).buf.length
          < (bs.drop (i + 1)).length := by
        rw [hlen2]
        exact hbig
      have h3 := writeW_spec (flushW (writeW w.inner (bs.take (i + 1)))) (bs.drop (i + 1)) hinv2
      have hpend3 := h3.2.2.2.2 hcond
      have hstream3 := h3.1
      rw [hpend3, List.append_nil, hpend2, List.append_nil] at hstream3
      constructor
      · show sinkBytes (writeW (flushW (writeW w.inner (bs.take (i + 1)))) (bs.drop (i + 1))) = _
        rw [hstream3, hsink2]
      · exact hpend3

/-- C7 counterexample: writing `[10] ++ 1025 zero bytes` (newline at index 0,
remainder longer than the 1024-byte inner buffer) to a fresh line writer does
NOT leave the remainder buffered: the buffer ends empty and the sink receives
the remainder immediately, beyond the newline. -/
theorem c7_counterexample_large_remainder :
    pending (lineWrite LineBufferedWriter.new (10 :: List.replicate 1025 0)).inner = [] ∧
    sinkBytes (lineWrite LineBufferedWriter.new (10 :: List.replicate 1025 0)).inner
        = 10 :: List.replicate 1025 0 ∧
    List.replicate 1025 0 ≠ ([] : List Byte) := by
  have hw : WInv (LineBufferedWriter.new).inner := by
    simp [WInv, LineBufferedWriter.new, BufferedWriter.withCapacity]
  have htake : (10 :: List.replicate 1025 0).take (0 + 1) = [10] := rfl
  have hdrop : (10 :: List.replicate 1025 0).drop (0 + 1) = List.replicate 1025 0 := rfl
  rw [lineWrite_some LineBufferedWriter.new (10 :: List.replicate 1025 0) 0
    (rposition_newline_head 1025), htake, hdrop]
  obtain ⟨hsink2, hpend2, hpos2, hlen2, hinv2⟩ :=
    flushW_after_write (LineBufferedWriter.new).inner [10] hw
  have hblen : (LineBufferedWriter.new).inner.buf.length = 1024 := by
    simp [LineBufferedWriter.new, BufferedWriter.withCapacity]
  have hcond : (flushW (writeW (LineBufferedWriter.new).inner [10])).buf.length
      < (List.replicate 1025 0 : List Byte).length := by
    rw [hlen2, hblen]
    simp
  have h3 := writeW_spec (flushW (writeW (LineBufferedWriter.new).inner [10]))
    (List.replicate 1025 0) hinv2
  have hpend3 := h3.2.2.2.2 hcond
  have hstream3 := h3.1
  rw [hpend3, List.append_nil, hpend2, List.append_nil] at hstream3
  refine ⟨hpend3, ?_, by simp⟩
  rw [hstream3, hsink2]
  have hsi : sinkBytes (LineBufferedWriter.new).inner = [] := rfl
  have hpi : pending (LineBufferedWriter.new).inner = [] := rfl
  rw [hsi, hpi]
  simp

/-- Witness: the amended C7 theorem applied to the spec's line-writer
scenario, writing `0, newline, 1, newline, 2`: the sink receives everything
through the second newline and the byte `2` stays buffered. -/
theorem c7_witness :
    sinkBytes (lineWrite LineBufferedWriter.new [0, 10, 1, 10, 2]).inner = [0, 10, 1, 10] ∧
    pending (lineWrite LineBufferedWriter.new [0, 10, 1, 10, 2]).inner = [2] := by
  have h := ((c7_line_write LineBufferedWriter.new [0, 10, 1, 10, 2]
      (by simp [WInv, LineBufferedWriter.new, BufferedWriter.withCapacity])).2 3
      (by decide)).1
      (by simp [LineBufferedWriter.new, BufferedWriter.withCapacity])
  obtain ⟨h1, h2⟩ := h
  constructor
  · rw [h1]
    rfl
  · rw [h2]
    rfl

/-! ### Generic invariant lemmas -/

theorem fillR_inv_good {ρ : Type} (ops : ReaderOps ρ) (r : BufferedReader ρ)
    (hg : GoodOps ops) (h : InvR r) :
    InvR (fillR ops r).2 ∧ (fillR ops r).2.buf.length = r.buf.length := by
  by_cases hpc : r.pos = r.cap
  · rcases hr : ops.read r.inner r.buf.length with ⟨o, s'⟩
    cases o with
    | none =>
      rw [fillR_drained_none ops r s' hpc hr]
      exact ⟨h, rfl⟩
    | some bs =>
      rw [fillR_drained_some ops r bs s' hpc hr]
      have hlen : bs.length ≤ r.buf.length := hg _ _ _ _ hr
      refine ⟨⟨Nat.zero_le _, ?_⟩, ?_⟩
      · simp only [List.length_append, List.length_drop]
        omega
      · simp only [List.length_append, List.length_drop]
        omega
  · rw [fillR_not_drained ops r hpc]
    exact ⟨h, rfl⟩

theorem readR_inv_good {ρ : Type} (ops : ReaderOps ρ) (r : BufferedReader ρ) (n : Nat)
    (hg : GoodOps ops) (h : InvR r) : InvR (readR ops r n).2 := by
  rcases hf : fillR ops r with ⟨a, r1⟩
  have hfi := fillR_inv_good ops r hg h
  rw [hf] at hfi
  have hwin := fillR_window ops r
  rw [hf] at hwin
  dsimp only at hfi hwin
  rw [readR_of_fill ops r n a r1 hf]
  by_cases ha : a.length = 0
  · rw [if_pos ha]
    exact hfi.1
  · rw [if_neg ha]
    obtain ⟨⟨h1, h2⟩, _⟩ := hfi
    have halen : a.length = min r1.cap r1.buf.length - r1.pos := by
      rw [hwin, listSlice_length]
    refine ⟨?_, h2⟩
    show r1.pos + min a.length n ≤ r1.cap
    omega

theorem oracleOps_read_length (s : List (Option (List Byte))) (n : Nat) :
    s.length ≤ (oracleOps.read s n).2.length + 1 := by
  cases s with
  | nil => simp [oracleOps]
  | cons o rest => simp [oracleOps]

/-! ### Claim C3 -/

/-- C3: `fill` refills from the source only when the buffer is exhausted
(`pos == cap`): with unread bytes available it returns exactly the buffered
window and changes nothing, with no source read at all (the scripted source's
pending reads are untouched); when exhausted it attempts exactly one source
read — the scripted source loses at most one pending entry per call — and a
refill yielding no new bytes (`None`, end-of-stream) leaves `pos` and `cap`
unchanged and returns an empty slice. -/
theorem c3_fill_refills_only_when_exhausted :
    (∀ (ρ : Type) (ops : ReaderOps ρ) (r : BufferedReader ρ),
      (r.pos ≠ r.cap → fillR ops r = (listSlice r.buf r.pos r.cap, r)) ∧
      (∀ s', r.pos = r.cap → ops.read r.inner r.buf.length = (none, s') →
        fillR ops r = ([], { r with inner := s' }))) ∧
    (∀ t : BufferedReader (List (Option (List Byte))),
      t.inner.length ≤ (fillR oracleOps t).2.inner.length + 1 ∧
      (t.pos ≠ t.cap → (fillR oracleOps t).2.inner = t.inner)) := by
  constructor
  · intro ρ ops r
    exact ⟨fillR_not_drained ops r, fun s' h hr => fillR_drained_none ops r s' h hr⟩
  · intro t
    constructor
    · rcases hr : oracleOps.read t.inner t.buf.length with ⟨o, s'⟩
      have hs' := oracleOps_read_length t.inner t.buf.length
      rw [hr] at hs'
      by_cases hpc : t.pos = t.cap
      · cases o with
        | none =>
          rw [fillR_drained_none oracleOps t s' hpc hr]
          exact hs'
        | some bs =>
          rw [fillR_drained_some oracleOps t bs s' hpc hr]
          exact hs'
      · rw [fillR_not_drained oracleOps t hpc]
        exact Nat.le_succ _
    · intro hpc
      rw [fillR_not_drained oracleOps t hpc]

/-- Witness: C3 applied to a reader holding one unread byte (the buffered
window comes back, the state, source included, is untouched) and to a drained
reader over an exhausted source (empty slice, `pos`/`cap` unchanged). -/
theorem c3_witness :
    fillR memOps ⟨[5], [7, 7], 1, 2⟩ = ([7], ⟨[5], [7, 7], 1, 2⟩) ∧
    fillR memOps ⟨[], [7, 7], 2, 2⟩ = ([], ⟨[], [7, 7], 2, 2⟩) := by
  constructor
  · have h := ((c3_fill_refills_only_when_exhausted.1 (List Byte) memOps
      ⟨[5], [7, 7], 1, 2⟩).1) (by decide)
    rw [h]
    decide
  · have h := ((c3_fill_refills_only_when_exhausted.1 (List Byte) memOps
      ⟨[], [7, 7], 2, 2⟩).2) [] (by decide) (by decide)
    rw [h]

/-! ### Claim C4 -/

/-- C4: `read` reports end-of-stream exactly when `fill` returned an empty
slice; otherwise it copies `min available.length destLen` bytes out of the
single filled window (never spanning a second refill), advancing `pos` by
that count; and on the concrete scenario of capacity 2 over `[0,1,2,3,4]`,
reads of sizes 3,1,3,3 return the byte runs `[0,1]`, `[2]`, `[3]`, `[4]`
(counts 2,1,1,1) and the next read reports end-of-stream. -/
theorem c4_read_short_reads :
    (∀ (ρ : Type) (ops : ReaderOps ρ) (r : BufferedReader ρ) (n : Nat),
      ((fillR ops r).1 = [] → readR ops r n = (none, (fillR ops r).2)) ∧
      ((fillR ops r).1 ≠ [] →
        readR ops r n =
          (some ((fillR ops r).1.take (min (fillR ops r).1.length n)),
           { (fillR ops r).2 with
               pos := (fillR ops r).2.pos + min (fillR ops r).1.length n }))) ∧
    (runReadsTrace memOps (BufferedReader.withCapacity 2 [0, 1, 2, 3, 4]) [3, 1, 3, 3, 3]).1
      = [some [0, 1], some [2], some [3], some [4], none] := by
  constructor
  · intro ρ ops r n
    have heq := readR_of_fill ops r n (fillR ops r).1 (fillR ops r).2 rfl
    constructor
    · intro hnil
      rw [heq, if_pos (by rw [hnil]; rfl)]
    · intro hne
      rw [heq, if_neg (fun h0 => hne (List.eq_nil_of_length_eq_zero h0))]
  · decide

/-- Witness: C4 applied to a drained reader over an exhausted source, whose
fill comes back empty: `read` reports end-of-stream. -/
theorem c4_witness :
    readR memOps ⟨[], [7, 7], 2, 2⟩ 1 = (none, ⟨[], [7, 7], 2, 2⟩) := by
  have h := (c4_read_short_reads.1 (List Byte) memOps ⟨[], [7, 7], 2, 2⟩ 1).1 (by decide)
  rw [h]
  decide

/-! ### Claim C6 -/

/-- C6: `eof` returns true exactly when the buffer is fully drained
(`pos == cap`) and the wrapped source reports end-of-stream; whenever unread
buffered bytes remain it returns false, whatever the source reports. -/
theorem c6_eof_drained_and_source (ρ : Type) (ops : ReaderOps ρ) (r : BufferedReader ρ) :
    (eofR ops r = true ↔ (r.pos = r.cap ∧ ops.eof r.inner = true)) ∧
    (r.pos ≠ r.cap → eofR ops r = false) := by
  constructor
  · simp [eofR]
  · intro h
    simp [eofR, h]

/-- Witness: C6 applied to a reader with one unread buffered byte over an
already-exhausted source: `eof` is false. -/
theorem c6_witness : eofR memOps ⟨[], [7, 7], 1, 2⟩ = false :=
  (c6_eof_drained_and_source (List Byte) memOps ⟨[], [7, 7], 1, 2⟩).2 (by decide)

/-! ### Claim C9 -/

/-- C9: the invariant `pos ≤ cap ≤ capacity` holds after construction and is
preserved by every `fill` and `read` (for a source that never reports more
bytes than the buffer it was handed) and by a successful `consume`; and
`consume(amt)` trips its assertion exactly when `pos + amt` would exceed
`cap`, touching no I/O state in either case (the record it returns keeps the
wrapped source untouched). -/
theorem c9_invariant_and_consume :
    (∀ (ρ : Type) (c : Nat) (s : ρ), InvR (BufferedReader.withCapacity c s)) ∧
    (∀ (ρ : Type) (ops : ReaderOps ρ) (r : BufferedReader ρ),
      GoodOps ops → InvR r → InvR (fillR ops r).2) ∧
    (∀ (ρ : Type) (ops : ReaderOps ρ) (r : BufferedReader ρ) (n : Nat),
      GoodOps ops → InvR r → InvR (readR ops r n).2) ∧
    (∀ (ρ : Type) (r : BufferedReader ρ) (amt : Nat),
      (r.pos + amt ≤ r.cap →
        consumeR r amt = some { r with pos := r.pos + amt } ∧
        (InvR r → InvR ({ r with pos := r.pos + amt } : BufferedReader ρ))) ∧
      (r.cap < r.pos + amt → consumeR r amt = none)) := by
  refine ⟨?_, ?_, ?_, ?_⟩
  · intro ρ c s
    exact invR_withCapacity c s
  · intro ρ ops r hg h
    exact (fillR_inv_good ops r hg h).1
  · intro ρ ops r n hg h
    exact readR_inv_good ops r n hg h
  · intro ρ r amt
    constructor
    · intro hle
      refine ⟨?_, ?_⟩
      · unfold consumeR
        rw [if_pos hle]
      · intro hi
        exact ⟨hle, hi.2⟩
    · intro hlt
      unfold consumeR
      rw [if_neg (show ¬ (r.pos + amt ≤ r.cap) by omega)]

/-- Witness: C9 applied to a fresh capacity-2 reader filled from `[1,2,3]`
(the in-memory source is well formed), to a two-step consume that succeeds
within the watermark, and to a consume past the watermark that trips the
assertion. -/
theorem c9_witness :
    InvR (fillR memOps (BufferedReader.withCapacity 2 [1, 2, 3])).2 ∧
    consumeR (⟨[], [7, 7], 0, 2⟩ : BufferedReader (List Byte)) 1
      = some ⟨[], [7, 7], 1, 2⟩ ∧
    consumeR (⟨[], [7, 7], 0, 2⟩ : BufferedReader (List Byte)) 3 = none := by
  refine ⟨?_, ?_, ?_⟩
  · exact c9_invariant_and_consume.2.1 (List Byte) memOps
      (BufferedReader.withCapacity 2 [1, 2, 3]) memOps_good (invR_withCapacity 2 [1, 2, 3])
  · exact ((c9_invariant_and_consume.2.2.2 (List Byte) ⟨[], [7, 7], 0, 2⟩ 1).1 (by decide)).1
  · exact (c9_invariant_and_consume.2.2.2 (List Byte) ⟨[], [7, 7], 0, 2⟩ 3).2 (by decide)

/-! ### Claim C10 -/

/-- C10: with the buffer exhausted, a refill on which the source returns a
count of zero bytes (`Some(0)` rather than `None`) makes `fill` return an
empty slice with `pos` and `cap` both reset to 0, and `read` reports
end-of-stream for that call without retrying, even though `eof()` can still
be false afterwards (shown on a scripted source with data left after the
zero-byte read): in `read`'s result a transient zero-byte source read is
indistinguishable from end-of-stream. -/
theorem c10_zero_byte_refill :
    (∀ (rest : List (Option (List Byte)))
       (t : BufferedReader (List (Option (List Byte)))) (n : Nat),
      t.pos = t.cap → t.inner = some [] :: rest →
        fillR oracleOps t = ([], { inner := rest, buf := t.buf, pos := 0, cap := 0 }) ∧
        readR oracleOps t n = (none, { inner := rest, buf := t.buf, pos := 0, cap := 0 })) ∧
    eofR oracleOps (readR oracleOps ⟨[some [], some [1]], [0, 0], 2, 2⟩ 1).2 = false := by
  constructor
  · intro rest t n hpc hinner
    have hr : oracleOps.read t.inner t.buf.length = (some [], rest) := by
      rw [hinner]
      simp [oracleOps]
    have hf := fillR_drained_some oracleOps t [] rest hpc hr
    have hf' : fillR oracleOps t = ([], { inner := rest, buf := t.buf, pos := 0, cap := 0 }) := by
      rw [hf]
      simp
    refine ⟨hf', ?_⟩
    rw [readR_of_fill oracleOps t n [] _ hf']
    simp
  · decide

/-- Witness: C10 applied to a drained capacity-2 reader whose scripted source
answers a zero-byte read first and still holds a byte. -/
theorem c10_witness :
    fillR oracleOps ⟨[some [], some [1]], [0, 0], 2, 2⟩
      = ([], ⟨[some [1]], [0, 0], 0, 0⟩) :=
  (c10_zero_byte_refill.1 [some [1]] ⟨[some [], some [1]], [0, 0], 2, 2⟩ 0
    (by decide) (by decide)).1
